import Mathlib

/-
  Verification of the OpenCortexBCI classifier core
  (src/opencortex/neuroengine/classifier.py).

  The development shallowly embeds the event-level pipeline of
  Classifier.preprocess (event filtering, stimulus-sequence learning, the
  inference-mode sequence matcher, relabeling), the control flow of
  Classifier.train and Classifier.predict, and the aggregation step
  Classifier.group_predictions.  Machine floats are modelled by ℚ, numpy
  arrays by lists, raised exceptions by Except.
-/

namespace OpenCortex

/- An MNE event row is [sample_index, previous_value, event_code]; only the
sample index and the code column (events[:, 2]) are used by the classifier. -/
structure Event where
  sampleIndex : Nat
  code : Nat
  deriving DecidableEq

/- Line 153: `events = events[events[:, 2] < 90]` — drop non-trial markers. -/
def dropEventsAbove90 (events : List Event) : List Event :=
  events.filter (fun e => e.code < 90)

/- Sorted duplicate-free insertion, the building block of npUnique below. -/
def insertSorted (x : Nat) : List Nat → List Nat
  | [] => [x]
  | y :: ys =>
    if x < y then x :: y :: ys
    else if x = y then y :: ys
    else y :: insertSorted x ys

/- Line 157: `self.sequence = np.unique(events[:, 2])`.  np.unique returns the
distinct values of its argument in ascending sorted order. -/
def npUnique (l : List Nat) : List Nat := l.foldr insertSorted []

/- Training-mode branch of Classifier.preprocess (lines 153 and 156 to 157):
the stimulus sequence learned from a recording is np.unique of the retained
(code < 90) event codes. -/
def trainSequence (events : List Event) : List Nat :=
  npUnique ((dropEventsAbove90 events).map Event.code)

/-- Modelled from the spec: the distinct retained codes in first-seen order
(insertion order equal to the order in which each unique code first appears in
the event stream).  This is the sequence the spec describes; it is compared
against trainSequence, which embeds the np.unique call of the source. -/
def firstSeenDistinct (l : List Nat) : List Nat :=
  l.foldl (fun acc c => if c ∈ acc then acc else acc ++ [c]) []

/- Inference-mode scan of Classifier.preprocess (lines 162 to 171):

      j = 0
      for i in range(0, len(events)):
          if events[i][2] == self.sequence[j]:
              j += 1
              trial_events.append(events[i])
              if j == len(self.sequence):
                  break
          else:
              j = 0
              trial_events = []

The arguments are the progress index j, the candidate list trial_events, and
the remaining events.  Whenever seq is non-empty the invariant j < seq.length
holds at every indexing of seq, so getD never falls back to its default. -/
def scanEvents (seq : List Nat) : Nat → List Event → List Event → List Event
  | _, cand, [] => cand
  | j, cand, e :: rest =>
    if e.code = seq.getD j 0 then
      if j + 1 = seq.length then cand ++ [e]
      else scanEvents seq (j + 1) (cand ++ [e]) rest
    else scanEvents seq 0 [] rest

/- Lines 162 to 175: run the scan and then
`if len(trial_events) < len(self.sequence): raise ValueError(...)`.
The raised ValueError (the spec's InsufficientMatchError) is the error case. -/
def matchSequence (seq : List Nat) (events : List Event) : Except String (List Event) :=
  if (scanEvents seq 0 [] events).length < seq.length then
    Except.error "Not enough events found for prediction"
  else
    Except.ok (scanEvents seq 0 [] events)

/- The inference branch runs on the filtered events of line 153. -/
def inferenceMatch (seq : List Nat) (events : List Event) : Except String (List Event) :=
  matchSequence seq (dropEventsAbove90 events)

/- Line 178: `events[:, 2][events[:, 2] != self.training_class] = 3` — events
whose code equals the training class keep their code, all others get code 3. -/
def assignLabels (trainingClass : Nat) (events : List Event) : List Event :=
  events.map (fun e => if e.code = trainingClass then e else { e with code := 3 })

/- Steps of Classifier.train (lines 97 to 107) that are relevant to control
flow, in source order. -/
inductive TrainStep
  | split
  | resample
  | scaleFit
  | crossVal
  | modelFit
  | evalHoldout
  deriving DecidableEq

/- Shallow embedding of the control flow of Classifier.train (lines 97 to
107): train_test_split, optional oversampling, scaler fitting, cross_validate,
model fit and held-out evaluation run in sequence with no exception handler
anywhere in the method.  A raised exception therefore propagates and the
statements after the raising call do not run.  The data each step computes is
irrelevant here and elided; cvResult is the outcome of the cross_validate
call.  The result is the list of executed steps together with the call's
outcome. -/
def trainFlow (oversample : Bool) (cvResult : Except String Unit) :
    List TrainStep × Except String Unit :=
  let pre := [TrainStep.split]
    ++ (if oversample then [TrainStep.resample] else [])
    ++ [TrainStep.scaleFit]
  match cvResult with
  | Except.error e => (pre ++ [TrainStep.crossVal], Except.error e)
  | Except.ok _ =>
    (pre ++ [TrainStep.crossVal, TrainStep.modelFit, TrainStep.evalHoldout], Except.ok ())

/- Errors that can arise inside Classifier.predict: the ValueError raised by
the sequence matcher (the spec's InsufficientMatchError), or any other
exception. -/
inductive PredictError
  | insufficientMatch : PredictError
  | otherError : String → PredictError
  deriving DecidableEq

/- Shallow embedding of Classifier.predict (lines 197 to 207):

      try:
          X, _ = self.preprocess(data)
      except Exception as e:
          logging.error(...)
          return

followed by scaling and prediction outside the handler.  preResult is the
outcome of the preprocessing call; post is the scaling-and-prediction stage.
The `except Exception` clause catches every error from preprocessing and the
method returns None (modelled as Except.ok none); errors of the post stage
propagate. -/
def predictFlow {α β : Type} (preResult : Except PredictError α)
    (post : α → Except PredictError β) : Except PredictError (Option β) :=
  match preResult with
  | Except.error _ => Except.ok none
  | Except.ok x => (post x).map some

/- Line 231: `np.round(y_1, 4)` — round to 4 decimal places.  Mathlib's round
(half away from zero upward) stands in for numpy's half-to-even float
rounding; no statement below depends on the tie-breaking rule. -/
def round4 (q : ℚ) : ℚ := (round (q * 10000) : ℤ) / 10000

/- np.argmax (line 233): index of the maximum value, first occurrence on ties.
The accumulator holds the running position i, the best index and best value. -/
def argmaxAux : List ℚ → Nat → Nat → ℚ → Nat × ℚ
  | [], _, bi, bv => (bi, bv)
  | x :: xs, i, bi, bv =>
    if bv < x then argmaxAux xs (i + 1) i x else argmaxAux xs (i + 1) bi bv

def argmaxIdx (l : List ℚ) : Nat :=
  match l with
  | [] => 0
  | x :: xs => (argmaxAux xs 1 0 x).1

/-- Modelled from the spec: `normalize(y_1, method='softmax')` at line 230 is
imported from opencortex.validation.cross_val, which is not under src/.  The
spec describes it as a softmax transform: v_i ↦ exp(v_i) / Σ_j exp(v_j).  The
real exponential is abstracted as the parameter E so that the development
stays over ℚ. -/
def softmaxWith (E : ℚ → ℚ) (v : List ℚ) : List ℚ :=
  v.map (fun x => E x / (v.map E).sum)

/- Result of Classifier.group_predictions: the python dict
{'class': argmax + 1, str(seq[0]): score_0, ...} is modelled as the decided
class together with the code-to-score pairs in sequence order. -/
structure GroupOutput where
  decidedClass : Nat
  scores : List (Nat × ℚ)
  deriving DecidableEq

/- Classifier.group_predictions, proba=True branch (lines 225 to 235): take
column 1 of the probability matrix (the positive class), softmax-normalize,
round to 4 decimals, decide the class as argmax + 1 and pair each stimulus
code of the sequence with its normalized score.  E is the exponential of the
spec-modelled softmax. -/
def group_predictions (E : ℚ → ℚ) (seq : List Nat) (probs : List (List ℚ)) :
    GroupOutput :=
  let y1 := probs.map (fun row => row.getD 1 0)
  let y1n := (softmaxWith E y1).map round4
  { decidedClass := argmaxIdx y1n + 1
    scores := seq.zip y1n }

/- Number of training samples carrying label c (labels are the 0/1 codes the
LabelEncoder of line 91 produces; the feature part of a sample is opaque). -/
def classCount {α : Type} (c : Nat) (tr : List (α × Nat)) : Nat :=
  tr.countP (fun s => s.2 == c)

/- Cyclic repetition used by the oversampler model below. -/
def cycleTake {α : Type} (pool : List α) (m : Nat) : List α :=
  ((List.replicate m pool).flatten).take m

/-- Modelled from the documented contract of the external library call at
lines 88 and 100, RandomOverSampler(sampling_strategy='minority'): duplicate
minority-class training samples (minority by count) until the class counts are
equal; with equal counts nothing is added.  Its random choice of which
minority samples to duplicate is replaced by cyclic repetition. -/
def oversampleMinority {α : Type} (tr : List (α × Nat)) : List (α × Nat) :=
  if classCount 0 tr < classCount 1 tr then
    tr ++ cycleTake (tr.filter (fun s => s.2 == 0)) (classCount 1 tr - classCount 0 tr)
  else if classCount 1 tr < classCount 0 tr then
    tr ++ cycleTake (tr.filter (fun s => s.2 == 1)) (classCount 0 tr - classCount 1 tr)
  else tr

/- Lines 97 to 100 of Classifier.train: after train_test_split produces the
train and test partitions, `if oversample: X_train, y_train =
oversampler.fit_resample(X_train, y_train)` rebinds only the training
partition; the test partition is not touched. -/
def trainPartitions {α : Type} (oversample : Bool)
    (trainP testP : List (α × Nat)) : List (α × Nat) × List (α × Nat) :=
  (if oversample then oversampleMinority trainP else trainP, testP)

/-
  Helper lemmas
-/

theorem take_succ_getD {α : Type} (l : List α) (j : Nat) (d : α) (h : j < l.length) :
    l.take (j + 1) = l.take j ++ [l.getD j d] := by
  induction l generalizing j with
  | nil => simp at h
  | cons x xs ih =>
    cases j with
    | zero => simp
    | succ j =>
      have hj : j < xs.length := by simpa using h
      simp [List.take_succ_cons, ih j hj]

theorem scanEvents_length_le (seq : List Nat) :
    ∀ (l : List Event) (j : Nat) (cand : List Event),
      cand.length = j → j < seq.length →
      (scanEvents seq j cand l).length ≤ seq.length := by
  intro l
  induction l with
  | nil =>
    intro j cand hlen hj
    simp only [scanEvents]
    omega
  | cons e rest ih =>
    intro j cand hlen hj
    simp only [scanEvents]
    by_cases hc : e.code = seq.getD j 0
    · rw [if_pos hc]
      by_cases hk : j + 1 = seq.length
      · rw [if_pos hk]
        simp [hlen]
        omega
      · rw [if_neg hk]
        exact ih (j + 1) (cand ++ [e]) (by simp [hlen]) (by omega)
    · rw [if_neg hc]
      exact ih 0 [] rfl (by omega)

theorem scanEvents_success (seq : List Nat) :
    ∀ (l : List Event) (j : Nat) (cand : List Event),
      cand.length = j → j < seq.length →
      cand.map Event.code = seq.take j →
      (scanEvents seq j cand l).length = seq.length →
      (scanEvents seq j cand l).map Event.code = seq ∧
        (scanEvents seq j cand l = cand ++ l.take (seq.length - j) ∨
          ∃ s, scanEvents seq j cand l = (l.drop s).take seq.length) := by
  intro l
  induction l with
  | nil =>
    intro j cand hlen hj hmap hres
    simp only [scanEvents] at hres
    omega
  | cons e rest ih =>
    intro j cand hlen hj hmap hres
    simp only [scanEvents] at hres ⊢
    by_cases hc : e.code = seq.getD j 0
    · rw [if_pos hc] at hres ⊢
      have hstep : (cand ++ [e]).map Event.code = seq.take (j + 1) := by
        rw [List.map_append, hmap, take_succ_getD seq j 0 hj]
        simp [hc]
      by_cases hk : j + 1 = seq.length
      · rw [if_pos hk] at hres ⊢
        constructor
        · rw [hstep, hk, List.take_length]
        · left
          have h1 : seq.length - j = 1 := by omega
          rw [h1]
          simp
      · rw [if_neg hk] at hres ⊢
        have hj1 : j + 1 < seq.length := by omega
        have hs := ih (j + 1) (cand ++ [e]) (by simp [hlen]) hj1 hstep hres
        refine ⟨hs.1, ?_⟩
        rcases hs.2 with h2 | ⟨s, h2⟩
        · left
          rw [h2]
          have h3 : seq.length - j = (seq.length - (j + 1)) + 1 := by omega
          rw [h3, List.take_succ_cons, List.append_assoc]
          simp
        · right
          exact ⟨s + 1, by rw [h2, List.drop_succ_cons]⟩
    · rw [if_neg hc] at hres ⊢
      have hs := ih 0 [] rfl (by omega) (by simp) hres
      refine ⟨hs.1, Or.inr ?_⟩
      rcases hs.2 with h2 | ⟨s, h2⟩
      · exact ⟨1, by rw [h2]; simp⟩
      · exact ⟨s + 1, by rw [h2, List.drop_succ_cons]⟩

theorem scanEvents_subset (seq : List Nat) :
    ∀ (l : List Event) (j : Nat) (cand : List Event) (x : Event),
      x ∈ scanEvents seq j cand l → x ∈ cand ∨ x ∈ l := by
  intro l
  induction l with
  | nil =>
    intro j cand x hx
    simp only [scanEvents] at hx
    exact Or.inl hx
  | cons e rest ih =>
    intro j cand x hx
    simp only [scanEvents] at hx
    by_cases hc : e.code = seq.getD j 0
    · rw [if_pos hc] at hx
      by_cases hk : j + 1 = seq.length
      · rw [if_pos hk] at hx
        rcases List.mem_append.mp hx with h | h
        · exact Or.inl h
        · simp only [List.mem_singleton] at h
          subst h
          exact Or.inr (List.mem_cons_self _ _)
      · rw [if_neg hk] at hx
        rcases ih (j + 1) (cand ++ [e]) x hx with h | h
        · rcases List.mem_append.mp h with h1 | h1
          · exact Or.inl h1
          · simp only [List.mem_singleton] at h1
            subst h1
            exact Or.inr (List.mem_cons_self _ _)
        · exact Or.inr (List.mem_cons_of_mem e h)
    · rw [if_neg hc] at hx
      rcases ih 0 [] x hx with h | h
      · simp at h
      · exact Or.inr (List.mem_cons_of_mem e h)

theorem mem_insertSorted (x : Nat) :
    ∀ (l : List Nat) (a : Nat), a ∈ insertSorted x l ↔ a = x ∨ a ∈ l := by
  intro l
  induction l with
  | nil =>
    intro a
    simp [insertSorted]
  | cons y ys ih =>
    intro a
    simp only [insertSorted]
    by_cases h1 : x < y
    · rw [if_pos h1]
      simp
    · rw [if_neg h1]
      by_cases h2 : x = y
      · rw [if_pos h2]
        subst h2
        simp
      · rw [if_neg h2]
        simp [ih]
        tauto

theorem sorted_insertSorted (x : Nat) :
    ∀ (l : List Nat), l.Sorted (· < ·) → (insertSorted x l).Sorted (· < ·) := by
  intro l
  induction l with
  | nil =>
    intro _
    simp [insertSorted]
  | cons y ys ih =>
    intro hs
    rw [List.sorted_cons] at hs
    obtain ⟨hy, hys⟩ := hs
    simp only [insertSorted]
    by_cases h1 : x < y
    · rw [if_pos h1, List.sorted_cons]
      refine ⟨?_, List.sorted_cons.mpr ⟨hy, hys⟩⟩
      intro b hb
      rcases List.mem_cons.mp hb with rfl | hb
      · exact h1
      · exact h1.trans (hy b hb)
    · rw [if_neg h1]
      by_cases h2 : x = y
      · rw [if_pos h2, List.sorted_cons]
        exact ⟨hy, hys⟩
      · rw [if_neg h2, List.sorted_cons]
        refine ⟨?_, ih hys⟩
        intro b hb
        rcases (mem_insertSorted x ys b).mp hb with rfl | hb
        · omega
        · exact hy b hb

theorem sorted_npUnique (l : List Nat) : (npUnique l).Sorted (· < ·) := by
  induction l with
  | nil => simp [npUnique]
  | cons x xs ih =>
    simp only [npUnique, List.foldr_cons] at ih ⊢
    exact sorted_insertSorted x _ ih

theorem mem_npUnique (l : List Nat) (a : Nat) : a ∈ npUnique l ↔ a ∈ l := by
  induction l with
  | nil => simp [npUnique]
  | cons x xs ih =>
    simp only [npUnique, List.foldr_cons] at ih ⊢
    rw [mem_insertSorted]
    simp [ih]

theorem argmaxAux_spec (l : List ℚ) :
    ∀ (xs : List ℚ) (i bi : Nat) (bv : ℚ),
      (∀ t, xs[t]? = l[i + t]?) → bi < l.length → l.getD bi 0 = bv →
      (argmaxAux xs i bi bv).1 < l.length ∧
        l.getD (argmaxAux xs i bi bv).1 0 = (argmaxAux xs i bi bv).2 ∧
        bv ≤ (argmaxAux xs i bi bv).2 ∧
        ∀ x ∈ xs, x ≤ (argmaxAux xs i bi bv).2 := by
  intro xs
  induction xs with
  | nil =>
    intro i bi bv hsuff hbi hbv
    simp only [argmaxAux]
    exact ⟨hbi, hbv, le_refl bv, by simp⟩
  | cons x xs ih =>
    intro i bi bv hsuff hbi hbv
    have hx : l[i]? = some x := by
      have h0 := hsuff 0
      simpa using h0.symm
    have hi : i < l.length := by
      by_contra hh
      push_neg at hh
      rw [List.getElem?_eq_none hh] at hx
      cases hx
    have hgx : l.getD i 0 = x := by
      rw [List.getD_eq_getElem?_getD, hx]
      rfl
    have hsuff' : ∀ t, xs[t]? = l[(i + 1) + t]? := by
      intro t
      have h1 := hsuff (t + 1)
      rw [List.getElem?_cons_succ] at h1
      rw [h1]
      congr 1
      omega
    simp only [argmaxAux]
    by_cases hlt : bv < x
    · rw [if_pos hlt]
      have hs := ih (i + 1) i x hsuff' hi hgx
      refine ⟨hs.1, hs.2.1, le_of_lt (lt_of_lt_of_le hlt hs.2.2.1), ?_⟩
      intro y hy
      rcases List.mem_cons.mp hy with rfl | hy
      · exact hs.2.2.1
      · exact hs.2.2.2 y hy
    · rw [if_neg hlt]
      push_neg at hlt
      have hs := ih (i + 1) bi bv hsuff' hbi hbv
      refine ⟨hs.1, hs.2.1, hs.2.2.1, ?_⟩
      intro y hy
      rcases List.mem_cons.mp hy with rfl | hy
      · exact le_trans hlt hs.2.2.1
      · exact hs.2.2.2 y hy

theorem argmaxIdx_spec (l : List ℚ) (h : l ≠ []) :
    argmaxIdx l < l.length ∧ ∀ x ∈ l, x ≤ l.getD (argmaxIdx l) 0 := by
  match l, h with
  | x :: xs, _ =>
    have hsuff : ∀ t, xs[t]? = (x :: xs)[1 + t]? := by
      intro t
      rw [Nat.add_comm, List.getElem?_cons_succ]
    have hs := argmaxAux_spec (x :: xs) xs 1 0 x hsuff (by simp) (by simp)
    simp only [argmaxIdx]
    refine ⟨hs.1, ?_⟩
    intro y hy
    rw [hs.2.1]
    rcases List.mem_cons.mp hy with rfl | hy
    · exact hs.2.2.1
    · exact hs.2.2.2 y hy

theorem mem_cycleTake {α : Type} {pool : List α} {m : Nat} {x : α}
    (h : x ∈ cycleTake pool m) : x ∈ pool := by
  have h1 : x ∈ (List.replicate m pool).flatten := List.take_subset _ _ h
  rcases List.mem_flatten.mp h1 with ⟨l, hl, hx⟩
  rw [List.eq_of_mem_replicate hl] at hx
  exact hx

theorem length_cycleTake {α : Type} (pool : List α) (m : Nat) (h : pool ≠ []) :
    (cycleTake pool m).length = m := by
  rw [cycleTake, List.length_take, List.length_flatten]
  have h1 : (List.map List.length (List.replicate m pool)).sum = m * pool.length := by
    rw [List.map_replicate, List.sum_replicate, smul_eq_mul]
  rw [h1]
  have hp : 1 ≤ pool.length := by
    cases pool with
    | nil => exact absurd rfl h
    | cons a l => simp
  have : m ≤ m * pool.length := Nat.le_mul_of_pos_right m (by omega)
  omega

theorem assignLabels_map_code (c : Nat) (events : List Event) :
    (assignLabels c events).map Event.code
      = events.map (fun e => if e.code = c then c else 3) := by
  induction events with
  | nil => rfl
  | cons e es ih =>
    simp only [assignLabels, List.map_cons] at ih ⊢
    rw [ih]
    by_cases h : e.code = c
    · simp [h]
    · simp [h]

theorem assignLabels_mem (c : Nat) (events : List Event) :
    ∀ e ∈ assignLabels c events, e.code = c ∨ e.code = 3 := by
  intro e he
  rw [assignLabels, List.mem_map] at he
  obtain ⟨e0, _, he0⟩ := he
  by_cases h : e0.code = c
  · rw [if_pos h] at he0
    subst he0
    exact Or.inl h
  · rw [if_neg h] at he0
    subst he0
    exact Or.inr rfl

theorem assignLabels_count (c : Nat) (events : List Event) (hc : c ≠ 3) :
    (assignLabels c events).countP (fun e => e.code == c)
      + (assignLabels c events).countP (fun e => e.code == 3)
      = events.length := by
  induction events with
  | nil => rfl
  | cons e es ih =>
    simp only [assignLabels, List.map_cons, List.countP_cons, List.length_cons,
      List.countP_map] at ih ⊢
    by_cases h : e.code = c
    · simp only [if_pos h]
      have hb1 : (e.code == c) = true := by simp [h]
      have hb2 : (e.code == 3) = false := by rw [h]; simp [hc]
      rw [hb1, hb2]
      norm_num
      omega
    · simp only [if_neg h]
      have hb1 : ((3 : Nat) == c) = false := by simp [Ne.symm hc]
      have hb2 : ((3 : Nat) == 3) = true := by simp
      rw [hb1, hb2]
      norm_num
      omega

theorem classCount_append {α : Type} (c : Nat) (l1 l2 : List (α × Nat)) :
    classCount c (l1 ++ l2) = classCount c l1 + classCount c l2 := by
  simp [classCount, List.countP_append]

theorem oversampleMinority_equalize {α : Type} (tr : List (α × Nat))
    (h0 : 0 < classCount 0 tr) (h1 : 0 < classCount 1 tr) :
    classCount 0 (oversampleMinority tr) = classCount 1 (oversampleMinority tr) ∧
      ∃ added, oversampleMinority tr = tr ++ added ∧
        (∀ s ∈ added, s ∈ tr) ∧
        (classCount 0 tr < classCount 1 tr → ∀ s ∈ added, s.2 = 0) ∧
        (classCount 1 tr < classCount 0 tr → ∀ s ∈ added, s.2 = 1) := by
  rcases Nat.lt_trichotomy (classCount 0 tr) (classCount 1 tr) with hlt | heq | hgt
  · have hne : tr.filter (fun s => s.2 == 0) ≠ [] := by
      rw [classCount, List.countP_pos_iff] at h0
      obtain ⟨a, ha, hpa⟩ := h0
      exact List.ne_nil_of_mem (List.mem_filter.mpr ⟨ha, hpa⟩)
    set added := cycleTake (tr.filter (fun s => s.2 == 0))
      (classCount 1 tr - classCount 0 tr) with hadded
    have hov : oversampleMinority tr = tr ++ added := by
      rw [oversampleMinority, if_pos hlt]
    have hmem : ∀ s ∈ added, s ∈ tr ∧ s.2 = 0 := by
      intro s hs
      have hf := mem_cycleTake hs
      rw [List.mem_filter] at hf
      exact ⟨hf.1, by simpa using hf.2⟩
    have hlen : added.length = classCount 1 tr - classCount 0 tr :=
      length_cycleTake _ _ hne
    have hc0 : added.countP (fun s => s.2 == 0) = added.length := by
      rw [List.countP_eq_length]
      intro a ha
      simp [(hmem a ha).2]
    have hc1 : added.countP (fun s => s.2 == 1) = 0 := by
      rw [List.countP_eq_zero]
      intro a ha
      simp [(hmem a ha).2]
    constructor
    · rw [hov, classCount_append, classCount_append]
      show classCount 0 tr + added.countP (fun s => s.2 == 0)
        = classCount 1 tr + added.countP (fun s => s.2 == 1)
      rw [hc0, hc1, hlen]
      omega
    · exact ⟨added, hov, fun s hs => (hmem s hs).1,
        fun _ s hs => (hmem s hs).2, fun hh => absurd hh (by omega)⟩
  · have hov : oversampleMinority tr = tr := by
      rw [oversampleMinority, if_neg (by omega), if_neg (by omega)]
    refine ⟨by rw [hov]; omega, [], by simp [hov], by simp, by simp, by simp⟩
  · have hne : tr.filter (fun s => s.2 == 1) ≠ [] := by
      rw [classCount, List.countP_pos_iff] at h1
      obtain ⟨a, ha, hpa⟩ := h1
      exact List.ne_nil_of_mem (List.mem_filter.mpr ⟨ha, hpa⟩)
    set added := cycleTake (tr.filter (fun s => s.2 == 1))
      (classCount 0 tr - classCount 1 tr) with hadded
    have hov : oversampleMinority tr = tr ++ added := by
      rw [oversampleMinority, if_neg (by omega), if_pos hgt]
    have hmem : ∀ s ∈ added, s ∈ tr ∧ s.2 = 1 := by
      intro s hs
      have hf := mem_cycleTake hs
      rw [List.mem_filter] at hf
      exact ⟨hf.1, by simpa using hf.2⟩
    have hlen : added.length = classCount 0 tr - classCount 1 tr :=
      length_cycleTake _ _ hne
    have hc1 : added.countP (fun s => s.2 == 1) = added.length := by
      rw [List.countP_eq_length]
      intro a ha
      simp [(hmem a ha).2]
    have hc0 : added.countP (fun s => s.2 == 0) = 0 := by
      rw [List.countP_eq_zero]
      intro a ha
      simp [(hmem a ha).2]
    constructor
    · rw [hov, classCount_append, classCount_append]
      show classCount 0 tr + added.countP (fun s => s.2 == 0)
        = classCount 1 tr + added.countP (fun s => s.2 == 1)
      rw [hc0, hc1, hlen]
      omega
    · exact ⟨added, hov, fun s hs => (hmem s hs).1,
        fun hh => absurd hh (by omega), fun _ s hs => (hmem s hs).2⟩

/-
  Claim C1
-/

/-- C1, counterexample to the claim as stated.  With sequence [1, 2] and the
stream of codes [1, 1, 2, 1, 2], the first run of 2 consecutive events whose
codes equal the sequence elementwise starts at stream position 1, but the
matcher succeeds with the run at positions 3 and 4: the event of code 1 at
position 1 aborts the first attempt without being re-tested, so the run at
positions 1 and 2 is skipped.  Hence a successful match does not always return
the first elementwise-matching run. -/
theorem c1_counterexample :
    matchSequence [1, 2] [⟨0, 1⟩, ⟨1, 1⟩, ⟨2, 2⟩, ⟨3, 1⟩, ⟨4, 2⟩]
        = Except.ok [⟨3, 1⟩, ⟨4, 2⟩] ∧
      ((([⟨0, 1⟩, ⟨1, 1⟩, ⟨2, 2⟩, ⟨3, 1⟩, ⟨4, 2⟩] : List Event).drop 1).take 2).map
          Event.code = [1, 2] ∧
      ([⟨3, 1⟩, ⟨4, 2⟩] : List Event)
        ≠ (([⟨0, 1⟩, ⟨1, 1⟩, ⟨2, 2⟩, ⟨3, 1⟩, ⟨4, 2⟩] : List Event).drop 1).take 2 :=
  ⟨rfl, rfl, by decide⟩

/-- C1, amended: for every ordered event stream and non-empty stimulus sequence
of length k, a successful inference-mode match returns a contiguous run of k
events of the stream, in increasing stream order, whose codes equal the
sequence elementwise — but not necessarily the first such run, since the
reset-without-retest rule can skip over an earlier elementwise-matching run. -/
theorem c1_match_returns_contiguous_run (seq : List Nat) (events : List Event)
    (t : List Event) (hne : seq ≠ [])
    (hok : matchSequence seq events = Except.ok t) :
    (∃ s, t = (events.drop s).take seq.length) ∧ t.map Event.code = seq := by
  rw [matchSequence] at hok
  by_cases h : (scanEvents seq 0 [] events).length < seq.length
  · rw [if_pos h] at hok
    cases hok
  · rw [if_neg h] at hok
    injection hok with ht
    have hpos : 0 < seq.length := List.length_pos.mpr hne
    have hle := scanEvents_length_le seq events 0 [] rfl hpos
    have heq : (scanEvents seq 0 [] events).length = seq.length := by omega
    have hs := scanEvents_success seq events 0 [] rfl hpos (by simp) heq
    rw [ht] at hs
    refine ⟨?_, hs.1⟩
    rcases hs.2 with h2 | ⟨s, h2⟩
    · exact ⟨0, by simpa using h2⟩
    · exact ⟨s, h2⟩

theorem c1_witness :
    (∃ s, ([⟨0, 1⟩, ⟨1, 2⟩] : List Event)
        = (([⟨0, 1⟩, ⟨1, 2⟩] : List Event).drop s).take ([1, 2] : List Nat).length) ∧
      ([⟨0, 1⟩, ⟨1, 2⟩] : List Event).map Event.code = [1, 2] :=
  c1_match_returns_contiguous_run [1, 2] [⟨0, 1⟩, ⟨1, 2⟩] [⟨0, 1⟩, ⟨1, 2⟩]
    (by decide) rfl

/-
  Claim C2
-/

/-- C2: on a mismatching event the matcher resets the progress index to 0 and
discards the candidate, and the scan continues with the next event: the
mismatching event is not re-tested against sequence[0] in the same step, so it
can never begin a new candidate match itself — the remainder of the scan is
exactly the scan of the remaining events from the initial state, with the
mismatching event gone, whatever its code. -/
theorem c2_mismatch_resets_without_retest (seq : List Nat) (j : Nat)
    (cand : List Event) (e : Event) (rest : List Event)
    (h : e.code ≠ seq.getD j 0) :
    scanEvents seq j cand (e :: rest) = scanEvents seq 0 [] rest := by
  simp only [scanEvents, if_neg h]

theorem c2_witness :
    scanEvents [1, 2] 1 [⟨0, 1⟩] [⟨1, 1⟩] = scanEvents [1, 2] 0 [] [] :=
  c2_mismatch_resets_without_retest [1, 2] 1 [⟨0, 1⟩] ⟨1, 1⟩ [] (by decide)

/-
  Claim C3
-/

/-- C3, counterexample to the claim as stated.  For the retained codes [2, 1]
(first-seen order [2, 1]), np.unique produces the ascending sorted order
[1, 2], so the stimulus sequence is not the distinct codes in first-seen
order. -/
theorem c3_counterexample :
    trainSequence [⟨0, 2⟩, ⟨1, 1⟩] = [1, 2] ∧
      firstSeenDistinct ((dropEventsAbove90 [⟨0, 2⟩, ⟨1, 1⟩]).map Event.code)
        = [2, 1] ∧
      trainSequence [⟨0, 2⟩, ⟨1, 1⟩]
        ≠ firstSeenDistinct ((dropEventsAbove90 [⟨0, 2⟩, ⟨1, 1⟩]).map Event.code) :=
  ⟨rfl, rfl, by decide⟩

/-- C3, amended: in training mode, after discarding events with code ≥ 90, the
stimulus sequence is set to the distinct retained codes in ascending sorted
order (the order np.unique returns), not in first-seen order: the sequence is
strictly sorted and contains a code exactly when some retained event carries
it. -/
theorem c3_train_sequence_sorted_distinct (events : List Event) :
    (trainSequence events).Sorted (· < ·) ∧
      ∀ c : Nat, c ∈ trainSequence events ↔
        ∃ e ∈ events, e.code < 90 ∧ c = e.code := by
  refine ⟨sorted_npUnique _, ?_⟩
  intro c
  rw [trainSequence, mem_npUnique]
  simp only [dropEventsAbove90, List.mem_map, List.mem_filter, decide_eq_true_eq]
  constructor
  · rintro ⟨e, ⟨he, h90⟩, rfl⟩
    exact ⟨e, he, h90, rfl⟩
  · rintro ⟨e, he, h90, rfl⟩
    exact ⟨e, ⟨he, h90⟩, rfl⟩

/-
  Claim C4
-/

/-- C4: for every non-empty stimulus sequence, the matcher either returns a
complete match (exactly as many events as the sequence, with the sequence's
codes) or fails with the sequence-not-found error; it never returns a partial
candidate.  In particular, when the stream is exhausted before a complete
match, the first disjunct is impossible and the matcher raises the error. -/
theorem c4_exhausted_stream_errors (seq : List Nat) (events : List Event)
    (hne : seq ≠ []) :
    (∃ t, matchSequence seq events = Except.ok t ∧ t.length = seq.length ∧
        t.map Event.code = seq) ∨
      matchSequence seq events
        = Except.error "Not enough events found for prediction" := by
  by_cases h : (scanEvents seq 0 [] events).length < seq.length
  · right
    rw [matchSequence, if_pos h]
  · left
    have hpos : 0 < seq.length := List.length_pos.mpr hne
    have hle := scanEvents_length_le seq events 0 [] rfl hpos
    have heq : (scanEvents seq 0 [] events).length = seq.length := by omega
    have hs := scanEvents_success seq events 0 [] rfl hpos (by simp) heq
    exact ⟨scanEvents seq 0 [] events, by rw [matchSequence, if_neg h], heq, hs.1⟩

theorem c4_witness :
    (∃ t, matchSequence [1, 2] [⟨0, 1⟩] = Except.ok t ∧
        t.length = ([1, 2] : List Nat).length ∧ t.map Event.code = [1, 2]) ∨
      matchSequence [1, 2] [⟨0, 1⟩]
        = Except.error "Not enough events found for prediction" :=
  c4_exhausted_stream_errors [1, 2] [⟨0, 1⟩] (by decide)

/-
  Claim C5
-/

/-- C5, counterexample to the claim as stated.  With trainingClass 1 and a
single retained event of code 1, no event is relabeled to the sentinel, so the
set of label values after relabeling is {1} and the sentinel 3 is absent: the
label set is not exactly {trainingClass, 3}. -/
theorem c5_counterexample :
    (assignLabels 1 [⟨0, 1⟩]).map Event.code = [1] ∧
      (3 : Nat) ∉ ([1] : List Nat) :=
  ⟨rfl, by decide⟩

/-- C5, amended: after relabeling with trainingClass c, every label value is c
or the sentinel 3 — so the label set is a subset of {c, 3}, reaching exactly
{c, 3} only when both a c-coded and a differently-coded event are retained; an
event keeps code c exactly when its code was c, all others become 3; and when
c ≠ 3 the number of c-labeled events plus the number of sentinel-labeled
events equals the total number of retained events. -/
theorem c5_relabel (c : Nat) (events : List Event) :
    (assignLabels c events).map Event.code
        = events.map (fun e => if e.code = c then c else 3) ∧
      (∀ e ∈ assignLabels c events, e.code = c ∨ e.code = 3) ∧
      (c ≠ 3 →
        (assignLabels c events).countP (fun e => e.code == c)
            + (assignLabels c events).countP (fun e => e.code == 3)
          = events.length) :=
  ⟨assignLabels_map_code c events, assignLabels_mem c events,
    fun hc => assignLabels_count c events hc⟩

theorem c5_witness :
    (assignLabels 1 [⟨0, 1⟩, ⟨1, 2⟩]).map Event.code
        = ([⟨0, 1⟩, ⟨1, 2⟩] : List Event).map (fun e => if e.code = 1 then 1 else 3) ∧
      (∀ e ∈ assignLabels 1 [⟨0, 1⟩, ⟨1, 2⟩], e.code = 1 ∨ e.code = 3) ∧
      (assignLabels 1 [⟨0, 1⟩, ⟨1, 2⟩]).countP (fun e => e.code == 1)
          + (assignLabels 1 [⟨0, 1⟩, ⟨1, 2⟩]).countP (fun e => e.code == 3)
        = ([⟨0, 1⟩, ⟨1, 2⟩] : List Event).length :=
  ⟨(c5_relabel 1 [⟨0, 1⟩, ⟨1, 2⟩]).1, (c5_relabel 1 [⟨0, 1⟩, ⟨1, 2⟩]).2.1,
    (c5_relabel 1 [⟨0, 1⟩, ⟨1, 2⟩]).2.2 (by decide)⟩

/-
  Claim C6
-/

/-- C6, counterexample to the claim as stated.  Classifier.train has no
exception handler around the cross_validate call, so a failure raised during
cross-validation propagates out of train: the model fit step does not execute
and the error is returned to the caller, contrary to logged-and-not-fatal. -/
theorem c6_counterexample :
    TrainStep.modelFit ∉ (trainFlow false (Except.error "cv failure")).1 ∧
      (trainFlow false (Except.error "cv failure")).2
        = Except.error "cv failure" := by
  refine ⟨?_, rfl⟩
  decide

/-- C6, amended: a failure raised during the cross-validation step of training
is fatal: it propagates out of train, so neither the final model fit nor the
held-out evaluation executes; when cross-validation does not raise, both
subsequent steps execute. -/
theorem c6_cv_failure_aborts_training (ov : Bool) (e : String) :
    TrainStep.modelFit ∉ (trainFlow ov (Except.error e)).1 ∧
      TrainStep.evalHoldout ∉ (trainFlow ov (Except.error e)).1 ∧
      (trainFlow ov (Except.error e)).2 = Except.error e ∧
      TrainStep.crossVal ∈ (trainFlow ov (Except.error e)).1 ∧
      TrainStep.modelFit ∈ (trainFlow ov (Except.ok ())).1 ∧
      TrainStep.evalHoldout ∈ (trainFlow ov (Except.ok ())).1 := by
  cases ov <;> simp [trainFlow]

/-
  Claim C7
-/

/-- C7, counterexample to the claim as stated.  An error other than the match
error raised during preprocessing is also caught by the `except Exception`
clause of Classifier.predict and converted to no result, so it is false that
every error other than InsufficientMatchError propagates to the caller. -/
theorem c7_counterexample :
    predictFlow (Except.error (PredictError.otherError "boom"))
        (fun n : Nat => Except.ok n) = Except.ok none ∧
      (Except.ok (none : Option Nat) : Except PredictError (Option Nat))
        ≠ Except.error (PredictError.otherError "boom") :=
  ⟨rfl, by simp⟩

/-- C7, amended: every error raised during inference-mode preprocessing — the
InsufficientMatchError and any other exception alike — is caught at the
prediction boundary and converted to no result (logged, no partial output),
while an error raised after preprocessing (scaling, model prediction)
propagates to the caller uncaught. -/
theorem c7_predict_error_boundary {α β : Type} (e : PredictError)
    (post : α → Except PredictError β) (x : α) (e2 : PredictError)
    (hpost : post x = Except.error e2) :
    predictFlow (Except.error e) post = Except.ok none ∧
      predictFlow (Except.ok x) post = Except.error e2 := by
  refine ⟨rfl, ?_⟩
  simp only [predictFlow, hpost]
  rfl

theorem c7_witness :
    predictFlow (Except.error PredictError.insufficientMatch)
        (fun _ : Nat => (Except.error (PredictError.otherError "scaler")
          : Except PredictError Nat)) = Except.ok none ∧
      predictFlow (Except.ok (0 : Nat))
        (fun _ : Nat => (Except.error (PredictError.otherError "scaler")
          : Except PredictError Nat))
        = Except.error (PredictError.otherError "scaler") :=
  c7_predict_error_boundary PredictError.insufficientMatch
    (fun _ : Nat => Except.error (PredictError.otherError "scaler")) 0
    (PredictError.otherError "scaler") rfl

/-
  Claim C8
-/

/-- C8: in the grouped probability path, the positive-class probabilities
(column 1) are softmax-normalized and rounded to 4 decimal places, the decided
class is the index of the (first) maximum normalized score plus 1, the decided
index is in range, and the returned mapping pairs each stimulus code of the
sequence, in sequence order, with its normalized score. -/
theorem c8_group_predictions (E : ℚ → ℚ) (seq : List Nat)
    (probs : List (List ℚ)) (hlen : probs.length = seq.length) (hne : seq ≠ []) :
    (group_predictions E seq probs).scores
        = seq.zip ((softmaxWith E (probs.map (fun row => row.getD 1 0))).map round4) ∧
      (group_predictions E seq probs).decidedClass
        = argmaxIdx
            ((softmaxWith E (probs.map (fun row => row.getD 1 0))).map round4) + 1 ∧
      argmaxIdx ((softmaxWith E (probs.map (fun row => row.getD 1 0))).map round4)
        < seq.length ∧
      ∀ x ∈ (softmaxWith E (probs.map (fun row => row.getD 1 0))).map round4,
        x ≤ ((softmaxWith E (probs.map (fun row => row.getD 1 0))).map round4).getD
            (argmaxIdx
              ((softmaxWith E (probs.map (fun row => row.getD 1 0))).map round4))
            0 := by
  have hlen2 :
      ((softmaxWith E (probs.map (fun row => row.getD 1 0))).map round4).length
        = seq.length := by
    simp [softmaxWith, hlen]
  have hnil :
      (softmaxWith E (probs.map (fun row => row.getD 1 0))).map round4 ≠ [] := by
    rw [← List.length_pos, hlen2]
    exact List.length_pos.mpr hne
  have hspec := argmaxIdx_spec _ hnil
  exact ⟨rfl, rfl, hlen2 ▸ hspec.1, hspec.2⟩

theorem c8_witness :
    (group_predictions id [5, 6] [[1/10, 9/10], [3/10, 7/10]]).scores
        = ([5, 6] : List Nat).zip
            ((softmaxWith id
              (([[1/10, 9/10], [3/10, 7/10]] : List (List ℚ)).map
                (fun row => row.getD 1 0))).map round4) ∧
      (group_predictions id [5, 6] [[1/10, 9/10], [3/10, 7/10]]).decidedClass
        = argmaxIdx
            ((softmaxWith id
              (([[1/10, 9/10], [3/10, 7/10]] : List (List ℚ)).map
                (fun row => row.getD 1 0))).map round4) + 1 ∧
      argmaxIdx
          ((softmaxWith id
            (([[1/10, 9/10], [3/10, 7/10]] : List (List ℚ)).map
              (fun row => row.getD 1 0))).map round4)
        < ([5, 6] : List Nat).length ∧
      ∀ x ∈ (softmaxWith id
            (([[1/10, 9/10], [3/10, 7/10]] : List (List ℚ)).map
              (fun row => row.getD 1 0))).map round4,
        x ≤ ((softmaxWith id
            (([[1/10, 9/10], [3/10, 7/10]] : List (List ℚ)).map
              (fun row => row.getD 1 0))).map round4).getD
            (argmaxIdx
              ((softmaxWith id
                (([[1/10, 9/10], [3/10, 7/10]] : List (List ℚ)).map
                  (fun row => row.getD 1 0))).map round4))
            0 :=
  c8_group_predictions id [5, 6] [[1/10, 9/10], [3/10, 7/10]] rfl (by decide)

/-
  Claim C9
-/

/-- C9: with oversampling enabled, minority-class training samples (minority
by count, not by label identity) are duplicated to equalize the class counts,
drawing only on the training partition, and the held-out test partition of the
pipeline is never modified by oversampling. -/
theorem c9_oversample_training_only {α : Type} (ov : Bool)
    (trainP testP : List (α × Nat))
    (h0 : 0 < classCount 0 trainP) (h1 : 0 < classCount 1 trainP) :
    (trainPartitions ov trainP testP).2 = testP ∧
      classCount 0 (trainPartitions true trainP testP).1
        = classCount 1 (trainPartitions true trainP testP).1 ∧
      ∃ added, (trainPartitions true trainP testP).1 = trainP ++ added ∧
        (∀ s ∈ added, s ∈ trainP) ∧
        (classCount 0 trainP < classCount 1 trainP → ∀ s ∈ added, s.2 = 0) ∧
        (classCount 1 trainP < classCount 0 trainP → ∀ s ∈ added, s.2 = 1) := by
  have hs := oversampleMinority_equalize trainP h0 h1
  exact ⟨rfl, hs.1, hs.2⟩

theorem c9_witness :
    (trainPartitions true [((10 : Nat), 0), (20, 1), (30, 1)] [((99 : Nat), 0)]).2
        = [((99 : Nat), 0)] ∧
      classCount 0
          (trainPartitions true [((10 : Nat), 0), (20, 1), (30, 1)]
            [((99 : Nat), 0)]).1
        = classCount 1
            (trainPartitions true [((10 : Nat), 0), (20, 1), (30, 1)]
              [((99 : Nat), 0)]).1 ∧
      ∃ added,
        (trainPartitions true [((10 : Nat), 0), (20, 1), (30, 1)]
            [((99 : Nat), 0)]).1
          = [((10 : Nat), 0), (20, 1), (30, 1)] ++ added ∧
        (∀ s ∈ added, s ∈ [((10 : Nat), 0), (20, 1), (30, 1)]) ∧
        (classCount 0 [((10 : Nat), 0), (20, 1), (30, 1)]
            < classCount 1 [((10 : Nat), 0), (20, 1), (30, 1)] →
          ∀ s ∈ added, s.2 = 0) ∧
        (classCount 1 [((10 : Nat), 0), (20, 1), (30, 1)]
            < classCount 0 [((10 : Nat), 0), (20, 1), (30, 1)] →
          ∀ s ∈ added, s.2 = 1) :=
  c9_oversample_training_only true [((10 : Nat), 0), (20, 1), (30, 1)]
    [((99 : Nat), 0)] (by decide) (by decide)

/-
  Claim C10
-/

/-- C10: every code stored in the stimulus sequence by a training-mode
preprocessing pass is strictly less than 90, and every event matched by the
inference-mode pass has code strictly less than 90, because events with
code ≥ 90 are discarded before either branch runs. -/
theorem c10_codes_below_90 (events : List Event) (seq : List Nat)
    (t : List Event) (hok : inferenceMatch seq events = Except.ok t) :
    (∀ c ∈ trainSequence events, c < 90) ∧ ∀ e ∈ t, e.code < 90 := by
  constructor
  · intro c hc
    rw [trainSequence, mem_npUnique] at hc
    simp only [dropEventsAbove90, List.mem_map, List.mem_filter,
      decide_eq_true_eq] at hc
    obtain ⟨e, ⟨_, h90⟩, heq⟩ := hc
    omega
  · intro e he
    rw [inferenceMatch, matchSequence] at hok
    by_cases h :
        (scanEvents seq 0 [] (dropEventsAbove90 events)).length < seq.length
    · rw [if_pos h] at hok
      cases hok
    · rw [if_neg h] at hok
      injection hok with ht
      have hmem := scanEvents_subset seq (dropEventsAbove90 events) 0 [] e
        (by rw [ht]; exact he)
      rcases hmem with hmem | hmem
      · simp at hmem
      · rw [dropEventsAbove90, List.mem_filter] at hmem
        simpa using hmem.2

theorem c10_witness :
    (∀ c ∈ trainSequence [⟨0, 5⟩, ⟨1, 95⟩, ⟨2, 7⟩], c < 90) ∧
      ∀ e ∈ ([⟨0, 5⟩, ⟨2, 7⟩] : List Event), e.code < 90 :=
  c10_codes_below_90 [⟨0, 5⟩, ⟨1, 95⟩, ⟨2, 7⟩] [5, 7] [⟨0, 5⟩, ⟨2, 7⟩] rfl

end OpenCortex
